import Mathlib

/-!
Verification of the `enform` schema/codec tool (src/main.py) against its
specification.

The program defines a tiny schema language ("codeform") parsed into an
ordered list of typed fields, and a codec that serializes textual values
into a byte buffer and back.  We give a shallow embedding:

* bytes are `Nat`s below 256, buffers are `List Nat`;
* Python strings are Lean `String`s (sequences of Unicode scalar values;
  Python's `len` is the number of code points, which is `String.length`);
* Python floats are IEEE-754 binary64 bit patterns, represented as `Nat`s
  below `2^64`; `struct`-level conversions (`float:32` packing) are modelled
  by explicit rounding functions on patterns;
* fallible operations return `Option`/`Except`.

bitstring semantics used by the code and reflected here:
* `pack("int:b", v)` accepts `-2^(b-1) ≤ v < 2^(b-1)` and produces the `b`-bit
  big-endian two's complement, `.tobytes()` zero-padding on the right to a
  whole byte;
* `pack("uint:b", v)` likewise for `0 ≤ v < 2^b`;
* `pack("float:64", x)` emits the 8 bytes of the binary64 pattern exactly;
  `pack("float:32", x)` converts to binary32 with round-to-nearest-even and
  raises `OverflowError` when a finite double would become infinite;
* `pack("bytes:n", data)` raises `CreationError` ("Token with length ...
  packed with value of length ...") whenever `len(data) ≠ n`;
* `BitStream(bytes=t).unpack("uint:b")` (resp. `int:b`) reads the first `b`
  bits of `t`, failing when fewer than `b` bits are present.

`math.log2` is embedded exactly (`bitsFor`, `enumSizeBytes` below); the one
claim that touches it in general form (the agreement of the two enum width
formulas) is insensitive to floating-point error in `log2`, because both
formulas are applied to the one common computed value.
-/

namespace Enform

/-- Big-endian byte list of `v` on `len` bytes (the `len` low-order bytes of
`v`, most significant first), as `bitstring`'s `.tobytes()` lays a
byte-aligned unsigned value out. -/
def beBytes : Nat → Nat → List Nat
  | 0, _ => []
  | len + 1, v => beBytes len (v / 256) ++ [v % 256]

/-- The unsigned big-endian value of a byte list, as `bitstring` reads a
`uint` from a byte-aligned stream. -/
def beVal : List Nat → Nat
  | [] => 0
  | b :: bs => b * 256 ^ bs.length + beVal bs

/-- The leading `bits` bits of byte list `tail`, read as an unsigned
big-endian integer: what `BitStream(bytes=tail).unpack("uint:bits")`
returns when `tail` has at least `bits` bits. -/
def readBits (bits : Nat) (tail : List Nat) : Nat :=
  beVal tail / 2 ^ (8 * tail.length - bits)

/-- Fueled binary bit length: `bitLenGo fuel n` is the number of binary
digits of `n` whenever `n < fuel`. -/
def bitLenGo : Nat → Nat → Nat
  | 0, _ => 0
  | fuel + 1, n => if n = 0 then 0 else bitLenGo fuel (n / 2) + 1

/-- `ceil(log2 (n+1))`, the enum bit width the code computes as
`math.ceil(math.log2(len(items) + 1))`: equal to the binary bit length
of `n`. -/
def bitsFor (n : Nat) : Nat := bitLenGo (n + 1) n

/-- Fueled base-256 digit length: `byteLenGo fuel n` is the number of
base-256 digits of `n` whenever `n < fuel`. -/
def byteLenGo : Nat → Nat → Nat
  | 0, _ => 0
  | fuel + 1, n => if n = 0 then 0 else byteLenGo fuel (n / 256) + 1

/-- `ceil(log2 (n+1) / 8)`, the enum byte step `Field.size` computes as
`math.ceil(math.log2(len(items) + 1) / 8)`: equal to the base-256 digit
length of `n`. -/
def enumSizeBytes (n : Nat) : Nat := byteLenGo (n + 1) n

/-- `ceil(bitsFor n / 8)`: the whole bytes the packed enum value occupies
after `.tobytes()` right-pads it with zero bits. -/
def enumEncBytes (n : Nat) : Nat := (bitsFor n + 7) / 8

/-- UTF-8 bytes of one code point (Lean `Char`s are scalar values, never
surrogates, so the strict encoder is total here). -/
def utf8EncodeChar (c : Nat) : List Nat :=
  if c < 0x80 then [c]
  else if c < 0x800 then [0xC0 + c / 0x40, 0x80 + c % 0x40]
  else if c < 0x10000 then
    [0xE0 + c / 0x1000, 0x80 + c / 0x40 % 0x40, 0x80 + c % 0x40]
  else
    [0xF0 + c / 0x40000, 0x80 + c / 0x1000 % 0x40,
     0x80 + c / 0x40 % 0x40, 0x80 + c % 0x40]

/-- UTF-8 bytes of a string, as Python's `str.encode("utf-8")`. -/
def utf8Bytes (s : String) : List Nat :=
  (s.data.map fun c => utf8EncodeChar c.toNat).flatten

/-- Strict UTF-8 decoding to code points, as Python's
`bytes.decode("utf-8")`: rejects stray continuation bytes, overlong forms,
surrogates and values above `0x10FFFF`. -/
def utf8Decode : List Nat → Option (List Char)
  | [] => some []
  | b :: bs =>
    if b < 0x80 then (utf8Decode bs).map fun cs => Char.ofNat b :: cs
    else if b < 0xC2 then none
    else if b < 0xE0 then
      match bs with
      | c1 :: bs1 =>
        if 0x80 ≤ c1 ∧ c1 < 0xC0 then
          (utf8Decode bs1).map fun cs =>
            Char.ofNat ((b - 0xC0) * 0x40 + (c1 - 0x80)) :: cs
        else none
      | [] => none
    else if b < 0xF0 then
      match bs with
      | c1 :: c2 :: bs2 =>
        if (0x80 ≤ c1 ∧ c1 < 0xC0) ∧ (0x80 ≤ c2 ∧ c2 < 0xC0) then
          let cp := (b - 0xE0) * 0x1000 + (c1 - 0x80) * 0x40 + (c2 - 0x80)
          if 0x800 ≤ cp ∧ ¬ (0xD800 ≤ cp ∧ cp < 0xE000) then
            (utf8Decode bs2).map fun cs => Char.ofNat cp :: cs
          else none
        else none
      | _ => none
    else if b < 0xF5 then
      match bs with
      | c1 :: c2 :: c3 :: bs3 =>
        if (0x80 ≤ c1 ∧ c1 < 0xC0) ∧ (0x80 ≤ c2 ∧ c2 < 0xC0) ∧
            (0x80 ≤ c3 ∧ c3 < 0xC0) then
          let cp := (b - 0xF0) * 0x40000 + (c1 - 0x80) * 0x1000 +
            (c2 - 0x80) * 0x40 + (c3 - 0x80)
          if 0x10000 ≤ cp ∧ cp < 0x110000 then
            (utf8Decode bs3).map fun cs => Char.ofNat cp :: cs
          else none
        else none
      | _ => none
    else none

/-- `FieldType` together with the `value` slot of `Field`: the bit width for
integers and floats, the item list for enums. -/
inductive FieldKind where
  | integer (bits : Nat)
  | float (bits : Nat)
  | string
  | enum (items : List String)
deriving DecidableEq

/-- A parsed field: `Field(name, type, value)` of the source, with the
type/value pair folded into `FieldKind`. -/
structure Field where
  name : String
  kind : FieldKind
deriving DecidableEq

/-- A decoded (or, for encoding, pre-parsed) Python value: `int(text)` for
integer fields, the binary64 pattern of `float(text)` for float fields, the
text itself for string and enum fields.  Supplying a value of the wrong
shape models `int(text)`/`float(text)` raising `ValueError`. -/
inductive PyValue where
  | vint (v : Int)
  | vfloat (pattern : Nat)
  | vstr (s : String)
deriving DecidableEq

/-- Binary64 pattern of the double a binary32 pattern denotes: the exact
widening conversion `struct.unpack(">f", ...)` performs (C `float` to
`double`). -/
def f32ToF64 (q : Nat) : Nat :=
  let s := q / 2 ^ 31
  let e := q / 2 ^ 23 % 2 ^ 8
  let f := q % 2 ^ 23
  if e = 255 then
    s * 2 ^ 63 + 2047 * 2 ^ 52 + f * 2 ^ 29
  else if e = 0 then
    if f = 0 then s * 2 ^ 63
    else
      let j := bitLenGo 24 f - 1
      s * 2 ^ 63 + (j + 874) * 2 ^ 52 + (f - 2 ^ j) * 2 ^ (52 - j)
  else
    s * 2 ^ 63 + (e + 896) * 2 ^ 52 + f * 2 ^ 29

/-- Binary32 pattern a binary64 pattern converts to: IEEE-754
round-to-nearest-even, the C double-to-float conversion `struct.pack(">f",
x)` performs.  `none` models the `OverflowError` CPython raises when a
finite double converts to an infinite float; NaN payloads keep their high
bits and the quiet bit, infinities and zeros convert exactly, and results
below the smallest binary32 subnormal round to zero. -/
def f64ToF32 (p : Nat) : Option Nat :=
  let s : Nat := p / 2 ^ 63
  let e : Nat := p / 2 ^ 52 % 2 ^ 11
  let f : Nat := p % 2 ^ 52
  if e = 2047 then
    some (s * 2 ^ 31 + 255 * 2 ^ 23 +
      (if f = 0 then 0 else f / 2 ^ 29 ||| 0x400000))
  else
    let m := if e = 0 then f else 2 ^ 52 + f
    if m = 0 then some (s * 2 ^ 31)
    else
      let e2 : Int := (if e = 0 then 1 else (e : Int)) - 1075
      let k : Int := (bitLenGo 54 m - 1 : Nat) + e2
      let t : Int := max (k - 23) (-149)
      let d : Int := t - e2
      let m0 : Nat :=
        if d ≤ 0 then m * 2 ^ (-d).toNat
        else
          let dn := d.toNat
          let q := m / 2 ^ dn
          let r := m % 2 ^ dn
          let half := 2 ^ (dn - 1)
          q + (if half < r ∨ (r = half ∧ q % 2 = 1) then 1 else 0)
      let mt : Nat × Int := if m0 = 2 ^ 24 then (2 ^ 23, t + 1) else (m0, t)
      if 2 ^ 23 ≤ mt.1 ∧ 105 ≤ mt.2 then none
      else some (s * 2 ^ 31 + (mt.2 + 149).toNat * 2 ^ 23 + mt.1)

/-- `Field.encode` for an integer field: `int(text)` packed as
`int:{bits}`; `none` is bitstring's `CreationError` on an out-of-range
value.  The parser only builds `bits ∈ {8,16,32,64}`. -/
def intEncode (bits : Nat) (v : Int) : Option (List Nat) :=
  if -(2 ^ (bits - 1) : Int) ≤ v ∧ v < 2 ^ (bits - 1) then
    let u := (v % (2 ^ bits : Int)).toNat
    let len := (bits + 7) / 8
    some (beBytes len (u * 2 ^ (8 * len - bits)))
  else none

/-- `Field.decode` for an integer field: read the first `bits` bits of the
buffer from `offset` on and interpret them as two's complement; `none` when
fewer bits remain. -/
def intDecode (bits : Nat) (buf : List Nat) (offset : Nat) : Option Int :=
  let tail := buf.drop offset
  if bits ≤ 8 * tail.length then
    let u := readBits bits tail
    some (if u < 2 ^ (bits - 1) then (u : Int) else (u : Int) - 2 ^ bits)
  else none

/-- `Field.encode` for a float field: the value's binary64 pattern packed
as `float:{bits}`.  The parser only builds `bits ∈ {32,64}`; a pattern
outside 64 bits represents no Python float. -/
def floatEncode (bits : Nat) (p : Nat) : Option (List Nat) :=
  if p < 2 ^ 64 then
    if bits = 64 then some (beBytes 8 p)
    else if bits = 32 then (f64ToF32 p).map (beBytes 4)
    else none
  else none

/-- `Field.decode` for a float field: read the first `bits` bits and return
the binary64 pattern of the resulting Python float. -/
def floatDecode (bits : Nat) (buf : List Nat) (offset : Nat) : Option Nat :=
  let tail := buf.drop offset
  if bits ≤ 8 * tail.length then
    let u := readBits bits tail
    if bits = 64 then some u
    else if bits = 32 then some (f32ToF64 u)
    else none
  else none

/-- `Field.encode` for a string field: the code builds `value = text + NUL`,
UTF-8-encodes it, and packs it with token `bytes:{len(value)}` where
`len(value)` counts *characters*; bitstring raises `CreationError` whenever
the byte count differs from the token length, i.e. whenever `text` has any
non-ASCII character. -/
def strEncode (s : String) : Option (List Nat) :=
  let bs := utf8Bytes s ++ [0]
  if bs.length = s.length + 1 then some bs else none

/-- `Field.decode` for a string field: find the first NUL at or after
`offset` (`ValueError`, hence `none`, when there is none) and UTF-8-decode
the bytes before it (`UnicodeDecodeError`, hence `none`, on invalid
UTF-8). -/
def strDecode (buf : List Nat) (offset : Nat) : Option String :=
  let tail := buf.drop offset
  match tail.findIdx? (fun b => b == 0) with
  | none => none
  | some z => (utf8Decode (tail.take z)).map String.mk

/-- `Field.encode` for an enum field: the label must be one of the items;
its first index is packed as `uint:{bitsFor n}` and `.tobytes()` pads with
zero bits on the right up to `enumEncBytes n` whole bytes.  (The packed
index is always below `2 ^ bitsFor n`, so bitstring's range check cannot
fire.) -/
def enumEncode (items : List String) (s : String) : Option (List Nat) :=
  if items.contains s then
    let bits := bitsFor items.length
    let len := enumEncBytes items.length
    some (beBytes len (items.indexOf s * 2 ^ (8 * len - bits)))
  else none

/-- `Field.decode` for an enum field: read the first `bitsFor n` bits of
the remaining buffer as an unsigned index; Python's `items[index]` raises
`IndexError` (`none`) when the index is out of range. -/
def enumDecode (items : List String) (buf : List Nat) (offset : Nat) :
    Option String :=
  let tail := buf.drop offset
  let bits := bitsFor items.length
  if bits ≤ 8 * tail.length then
    let u := readBits bits tail
    if h : u < items.length then some (items.get ⟨u, h⟩) else none
  else none

/-- `Field.encode`, dispatching on the field type as the source's `match`
does. -/
def encodeField : FieldKind → PyValue → Option (List Nat)
  | .integer bits, .vint v => intEncode bits v
  | .float bits, .vfloat p => floatEncode bits p
  | .string, .vstr s => strEncode s
  | .enum items, .vstr s => enumEncode items s
  | _, _ => none

/-- `Field.decode`, dispatching on the field type. -/
def decodeField : FieldKind → List Nat → Nat → Option PyValue
  | .integer bits, buf, off => (intDecode bits buf off).map .vint
  | .float bits, buf, off => (floatDecode bits buf off).map .vfloat
  | .string, buf, off => (strDecode buf off).map .vstr
  | .enum items, buf, off => (enumDecode items buf off).map .vstr

/-- `int(Field.size())` as `Form.decode` uses it to advance the offset:
`int(bits/8)` for integers and floats (truncating float division), `0` for
strings (never consulted there), `ceil(log2(n+1)/8)` for enums. -/
def fieldSize : FieldKind → Nat
  | .integer bits => bits / 8
  | .float bits => bits / 8
  | .string => 0
  | .enum items => enumSizeBytes items.length

/-- How `Form.decode` advances its running offset after a field: for a
string field, `len(obj[name]) + 1` — the *character* count of the decoded
text plus one — and `int(field.size())` otherwise. -/
def pyAdvance : FieldKind → PyValue → Nat
  | .string, .vstr s => s.length + 1
  | k, _ => fieldSize k

/-- The result mapping of `Form.decode`: a Python dict in insertion order,
`obj[name] = value` keeping the first position of an existing key but
overwriting its value. -/
abbrev Dict : Type := List (String × PyValue)

/-- `obj[k] = v` on an insertion-ordered dict. -/
def dictInsert (d : Dict) (k : String) (v : PyValue) : Dict :=
  if (List.any d fun p => p.1 == k) then
    List.map (fun p => if p.1 == k then (k, v) else p) d
  else d ++ [(k, v)]

/-- Repeated insertion, for stating what a whole decode produces. -/
def dictInsertAll (d : Dict) (ps : List (String × PyValue)) : Dict :=
  ps.foldl (fun acc p => dictInsert acc p.1 p.2) d

/-- `Form.encode` on pre-parsed values: per-field encodings concatenated in
declaration order (`none` on a failing field or an arity mismatch). -/
def formEncode : List Field → List PyValue → Option (List Nat)
  | [], [] => some []
  | fld :: fs, v :: vs => do
    let b ← encodeField fld.kind v
    let rest ← formEncode fs vs
    pure (b ++ rest)
  | _, _ => none

/-- The loop of `Form.decode`: running offset, insertion into `obj`, and
the per-kind offset advance. -/
def formDecodeLoop : List Field → List Nat → Nat → Dict → Option Dict
  | [], _, _, obj => some obj
  | fld :: fs, buf, off, obj =>
    match decodeField fld.kind buf off with
    | none => none
    | some v =>
      formDecodeLoop fs buf (off + pyAdvance fld.kind v)
        (dictInsert obj fld.name v)

/-- `Form.decode`: offset starts at 0, `obj` starts empty. -/
def formDecode (fields : List Field) (buf : List Nat) : Option Dict :=
  formDecodeLoop fields buf 0 []

/-! ## The schema parser (`FormParser`)

The parser state is the source text and the cursor; `self.char` is always
`source[cursor]`, or `'\x00'` once the cursor passes the end (`advance`),
so it is derived rather than stored.  Python's `isalpha`/`isalnum`/
`isnumeric` are modelled by their ASCII restrictions (`Char.isAlpha` etc.);
the two agree on ASCII text, and general statements about the parser carry
an ASCII side condition where the difference could matter.  Loops are
embedded with a fuel argument; `fuelOut` is an artifact of that embedding
and is unreachable at the fuel the entry points supply, since every loop
iteration advances the cursor. -/

/-- Parser state: `self.source` and `self.cursor`. -/
structure PState where
  source : List Char
  cursor : Nat
deriving DecidableEq

/-- `self.char`: the character under the cursor, `'\x00'` past the end. -/
def curChar (st : PState) : Char :=
  if h : st.cursor < st.source.length then st.source.get ⟨st.cursor, h⟩
  else '\x00'

/-- `advance`: move the cursor one character right. -/
def advance (st : PState) : PState :=
  { st with cursor := st.cursor + 1 }

/-- What `parse_form` can raise: `parseError pos expected` for the parser's
own positioned exceptions, `indexError` for the uncaught `IndexError` of
`codeform[0]` on an empty schema, `fuelOut` for exhausted fuel (an
embedding artifact, never reached from `parseForm`). -/
inductive PErr where
  | indexError
  | parseError (pos : Nat) (expected : String)
  | fuelOut
deriving DecidableEq

deriving instance DecidableEq for Except

/-- `expect(char)`: consume exactly `char` or raise at the current
position. -/
def expect (c : Char) (st : PState) : Except PErr (Unit × PState) :=
  if curChar st = c then .ok ((), advance st)
  else .error (.parseError st.cursor (String.singleton c))

/-- A scanning loop: advance while the character satisfies `p` (fueled). -/
def collectRunGo (p : Char → Bool) : Nat → PState → PState
  | 0, st => st
  | fuel + 1, st => if p (curChar st) then collectRunGo p fuel (advance st) else st

/-- Run a scanning loop with enough fuel to pass the end of the source
(every predicate used rejects `'\x00'`, so the loop always stops there). -/
def collectRun (p : Char → Bool) (st : PState) : PState :=
  collectRunGo p (st.source.length + 1 - st.cursor) st

/-- The source text between two cursor positions, `self.source[start:cur]`. -/
def sliceFrom (st : PState) (start : Nat) : String :=
  String.mk ((st.source.drop start).take (st.cursor - start))

/-- `collect_word`: a letter followed by letters, digits and underscores;
raises at the current position when the first character is no letter. -/
def collectWord (st : PState) : Except PErr (String × PState) :=
  if (curChar st).isAlpha then
    let st2 := collectRun (fun c => c.isAlphanum || c == '_') st
    .ok (sliceFrom st2 st.cursor, st2)
  else .error (.parseError st.cursor "letter")

/-- `int(digits)` on a non-empty ASCII digit string. -/
def natOfDigits (s : String) : Nat :=
  s.data.foldl (fun a c => a * 10 + (c.toNat - 48)) 0

/-- The (effective, second) `collect_integer`: the run of digits under the
cursor, as text. -/
def collectDigits (st : PState) : String × PState :=
  let st2 := collectRun Char.isDigit st
  (sliceFrom st2 st.cursor, st2)

/-- `collect_bitsize_integer`: digits restricted to {8,16,32,64}, defaulting
to 8 when no digit follows. -/
def collectBitsizeInteger (st : PState) : Except PErr (Nat × PState) :=
  if (curChar st).isDigit then
    let ds := collectDigits st
    let bitsize := natOfDigits ds.1
    if bitsize = 8 ∨ bitsize = 16 ∨ bitsize = 32 ∨ bitsize = 64 then
      .ok (bitsize, ds.2)
    else .error (.parseError ds.2.cursor "bitsize-8-16-32-64")
  else .ok (8, st)

/-- `collect_bitsize_float`: digits restricted to {32,64}, defaulting to 32
when no digit follows. -/
def collectBitsizeFloat (st : PState) : Except PErr (Nat × PState) :=
  if (curChar st).isDigit then
    let ds := collectDigits st
    let bitsize := natOfDigits ds.1
    if bitsize = 32 ∨ bitsize = 64 then
      .ok (bitsize, ds.2)
    else .error (.parseError ds.2.cursor "bitsize-32-64")
  else .ok (32, st)

/-- The loop of `collect_enum`: words separated by `,`, closed by a `;`
which is consumed; no `]` is ever required or consumed. -/
def collectEnumGo : Nat → PState → List String → Except PErr (List String × PState)
  | 0, _, _ => .error .fuelOut
  | fuel + 1, st, items => do
    let (w, st) ← collectWord st
    let items := items ++ [w]
    if curChar st ≠ ';' then do
      let (_, st) ← expect ',' st
      collectEnumGo fuel st items
    else .ok (items, advance st)

/-- `collect_enum`: `[`, then the item loop. -/
def collectEnum (st : PState) : Except PErr (List String × PState) := do
  let (_, st) ← expect '[' st
  collectEnumGo (st.source.length + 1) st []

/-- `collect_type_and_value`: dispatch on the type letter. -/
def collectTypeAndValue (st : PState) : Except PErr (FieldKind × PState) :=
  if curChar st = 'i' then do
    let (bits, st) ← collectBitsizeInteger (advance st)
    .ok (.integer bits, st)
  else if curChar st = 'f' then do
    let (bits, st) ← collectBitsizeFloat (advance st)
    .ok (.float bits, st)
  else if curChar st = 's' then .ok (.string, advance st)
  else if curChar st = 'e' then do
    let (items, st) ← collectEnum (advance st)
    .ok (.enum items, st)
  else .error (.parseError st.cursor "type-i-f-s-e")

/-- One iteration body of the `parse_form` loop: name, `:`, type spec. -/
def parseField (st : PState) : Except PErr (Field × PState) := do
  let (fieldName, st) ← collectWord st
  let (_, st) ← expect ':' st
  let (kind, st) ← collectTypeAndValue st
  .ok (⟨fieldName, kind⟩, st)

/-- The `parse_form` loop: while the cursor is inside the source, parse a
field; then continue past a `,` or stop, returning the fields collected so
far and ignoring any remaining text. -/
def parseLoopGo : Nat → PState → List Field → Except PErr (List Field)
  | 0, _, _ => .error .fuelOut
  | fuel + 1, st, fields =>
    if st.cursor < st.source.length then
      match parseField st with
      | .error e => .error e
      | .ok (fld, st2) =>
        if curChar st2 ≠ ',' then .ok (fields ++ [fld])
        else parseLoopGo fuel (advance st2) (fields ++ [fld])
    else .ok fields

/-- `parse_form`: setting `self.char = codeform[0]` raises `IndexError` on
an empty schema before any token is examined; otherwise run the field
loop from cursor 0. -/
def parseForm (codeform : String) : Except PErr (List Field) :=
  let src := codeform.data
  if src.length = 0 then .error .indexError
  else parseLoopGo (src.length + 1) ⟨src, 0⟩ []

/-- Field kinds whose width is fixed and which round-trip exactly: integers
with a parser-accepted width, 64-bit floats, enums.  (32-bit floats are
fixed-width but round their value, see the C1 counterexample; strings have
no fixed width.) -/
def fixedOk : FieldKind → Bool
  | .integer bits => bits == 8 || bits == 16 || bits == 32 || bits == 64
  | .float bits => bits == 64
  | .string => false
  | .enum _ => true

/-- A `PyValue` that represents a Python value: float patterns fit in 64
bits. -/
def valueWf : PyValue → Bool
  | .vfloat p => p < 2 ^ 64
  | _ => true

/-! ## Byte- and bit-level lemmas -/

theorem length_beBytes (len v : Nat) : (beBytes len v).length = len := by
  induction len generalizing v with
  | zero => rfl
  | succ n ih => simp [beBytes, ih]

theorem beVal_append (a b : List Nat) :
    beVal (a ++ b) = beVal a * 256 ^ b.length + beVal b := by
  induction a with
  | nil => simp [beVal]
  | cons x xs ih =>
    simp only [List.cons_append, beVal, ih, List.append_eq, List.length_append, pow_add]
    ring

theorem beVal_lt (a : List Nat) (ha : ∀ x ∈ a, x < 256) :
    beVal a < 256 ^ a.length := by
  induction a with
  | nil => simp [beVal]
  | cons x xs ih =>
    have hx : x < 256 := ha x (List.mem_cons_self x xs)
    have hxs : beVal xs < 256 ^ xs.length :=
      ih fun y hy => ha y (List.mem_cons_of_mem x hy)
    have : x * 256 ^ xs.length + beVal xs < (x + 1) * 256 ^ xs.length := by
      have := Nat.pos_pow_of_pos (n := 256) xs.length (by norm_num)
      nlinarith
    calc beVal (x :: xs) = x * 256 ^ xs.length + beVal xs := rfl
      _ < (x + 1) * 256 ^ xs.length := this
      _ ≤ 256 * 256 ^ xs.length := by
          have : x + 1 ≤ 256 := hx
          exact Nat.mul_le_mul_right _ this
      _ = 256 ^ (x :: xs).length := by
          simp [List.length_cons, pow_succ, Nat.mul_comm]

theorem mem_beBytes_lt (len v : Nat) : ∀ x ∈ beBytes len v, x < 256 := by
  induction len generalizing v with
  | zero => intro x hx; simp [beBytes] at hx
  | succ n ih =>
    intro x hx
    simp only [beBytes, List.mem_append, List.mem_singleton] at hx
    rcases hx with hx | hx
    · exact ih _ x hx
    · subst hx; exact Nat.mod_lt _ (by norm_num)

theorem beVal_beBytes (len v : Nat) : beVal (beBytes len v) = v % 256 ^ len := by
  induction len generalizing v with
  | zero => simp [beBytes, beVal, Nat.mod_one]
  | succ n ih =>
    have hmod : v % 256 ^ (n + 1) = v % 256 + 256 * (v / 256 % 256 ^ n) := by
      rw [show (256:Nat) ^ (n + 1) = 256 * 256 ^ n by rw [pow_succ]; ring]
      exact Nat.mod_mul
    simp only [beBytes, beVal_append, ih, beVal, List.length_cons, List.length_nil,
      pow_zero, pow_one, Nat.mul_one, Nat.add_zero]
    omega

theorem bitLenGo_le_iff (fuel : Nat) :
    ∀ n k : Nat, n < fuel → (bitLenGo fuel n ≤ k ↔ n < 2 ^ k) := by
  induction fuel with
  | zero => intro n k h; omega
  | succ fuel ih =>
    intro n k h
    by_cases h0 : n = 0
    · subst h0
      simp [bitLenGo, Nat.pos_pow_of_pos k (by norm_num : (0:Nat) < 2)]
    · simp only [bitLenGo, if_neg h0]
      cases k with
      | zero =>
        simp only [pow_zero]
        omega
      | succ k2 =>
        have hrec : n / 2 < fuel := by
          have h1 : n / 2 < n := Nat.div_lt_self (Nat.pos_of_ne_zero h0) one_lt_two
          omega
        rw [Nat.succ_le_succ_iff, ih (n / 2) k2 hrec,
          Nat.div_lt_iff_lt_mul (by norm_num : (0:Nat) < 2), ← pow_succ]

theorem byteLenGo_le_iff (fuel : Nat) :
    ∀ n k : Nat, n < fuel → (byteLenGo fuel n ≤ k ↔ n < 256 ^ k) := by
  induction fuel with
  | zero => intro n k h; omega
  | succ fuel ih =>
    intro n k h
    by_cases h0 : n = 0
    · subst h0
      simp [byteLenGo, Nat.pos_pow_of_pos k (by norm_num : (0:Nat) < 256)]
    · simp only [byteLenGo, if_neg h0]
      cases k with
      | zero =>
        simp only [pow_zero]
        omega
      | succ k2 =>
        have hrec : n / 256 < fuel := by
          have h1 : n / 256 < n := Nat.div_lt_self (Nat.pos_of_ne_zero h0) (by norm_num)
          omega
        rw [Nat.succ_le_succ_iff, ih (n / 256) k2 hrec,
          Nat.div_lt_iff_lt_mul (by norm_num : (0:Nat) < 256), ← pow_succ]

theorem bitsFor_le_iff (n k : Nat) : bitsFor n ≤ k ↔ n < 2 ^ k :=
  bitLenGo_le_iff (n + 1) n k (Nat.lt_succ_self n)

theorem enumSizeBytes_le_iff (n k : Nat) : enumSizeBytes n ≤ k ↔ n < 256 ^ k :=
  byteLenGo_le_iff (n + 1) n k (Nat.lt_succ_self n)

theorem lt_two_pow_bitsFor (n : Nat) : n < 2 ^ bitsFor n :=
  (bitsFor_le_iff n (bitsFor n)).mp le_rfl

theorem pow256_eq_pow2 (k : Nat) : (256 : Nat) ^ k = 2 ^ (8 * k) := by
  rw [show (256 : Nat) = 2 ^ 8 by norm_num, ← pow_mul]

/-- The whole-byte rounding of the enum bit width equals the enum byte step
of `Field.size`: `ceil(ceil(log2(n+1)) / 8) = ceil(log2(n+1) / 8)`, an
instance of the division identity `ceil(ceil(x)/m) = ceil(x/m)`.  The two
formulas of the code therefore never disagree. -/
theorem encBytes_eq_sizeBytes (n : Nat) : enumEncBytes n = enumSizeBytes n := by
  have key : ∀ k : Nat, enumEncBytes n ≤ k ↔ enumSizeBytes n ≤ k := by
    intro k
    unfold enumEncBytes
    have h1 : (bitsFor n + 7) / 8 ≤ k ↔ bitsFor n ≤ 8 * k := by
      constructor
      · intro h
        have := Nat.div_add_mod (bitsFor n + 7) 8
        have h8 : (bitsFor n + 7) / 8 * 8 ≤ k * 8 := Nat.mul_le_mul_right 8 h
        omega
      · intro h
        have h2 : bitsFor n + 7 < 8 * (k + 1) := by omega
        have := (Nat.div_lt_iff_lt_mul (by norm_num : (0:Nat) < 8)).mpr
          (by omega : bitsFor n + 7 < (k + 1) * 8)
        omega
    rw [h1, bitsFor_le_iff, enumSizeBytes_le_iff, pow256_eq_pow2]
  exact le_antisymm ((key _).mpr le_rfl) ((key _).mp le_rfl)

/-- Reading back the leading `bits` bits of an encoded, right-padded value:
the core round-trip fact for every fixed-width field. -/
theorem readBits_encoded (bits len u : Nat) (post : List Nat)
    (hbl : bits ≤ 8 * len) (hu : u < 2 ^ bits)
    (hpost : beVal post < 256 ^ post.length) :
    readBits bits (beBytes len (u * 2 ^ (8 * len - bits)) ++ post) = u := by
  unfold readBits
  rw [List.length_append, length_beBytes, beVal_append, beVal_beBytes]
  have hval : u * 2 ^ (8 * len - bits) < 256 ^ len := by
    rw [pow256_eq_pow2]
    calc u * 2 ^ (8 * len - bits) < 2 ^ bits * 2 ^ (8 * len - bits) :=
          (Nat.mul_lt_mul_right (Nat.pos_pow_of_pos _ (by norm_num))).mpr hu
      _ = 2 ^ (8 * len) := by rw [← pow_add]; congr 1; omega
  rw [Nat.mod_eq_of_lt hval]
  have hexp : 8 * (len + post.length) - bits = (8 * len - bits) + 8 * post.length := by
    omega
  rw [hexp, pow_add, ← pow256_eq_pow2]
  have hD : (0:Nat) < 2 ^ (8 * len - bits) * 256 ^ post.length :=
    Nat.mul_pos (Nat.pos_pow_of_pos _ (by norm_num)) (Nat.pos_pow_of_pos _ (by norm_num))
  have harr : u * 2 ^ (8 * len - bits) * 256 ^ post.length + beVal post
      = 2 ^ (8 * len - bits) * 256 ^ post.length * u + beVal post := by ring
  rw [harr, Nat.mul_add_div hD]
  have hsmall : beVal post / (2 ^ (8 * len - bits) * 256 ^ post.length) = 0 := by
    apply Nat.div_eq_of_lt
    calc beVal post < 256 ^ post.length := hpost
      _ ≤ 2 ^ (8 * len - bits) * 256 ^ post.length :=
          Nat.le_mul_of_pos_left _ (Nat.pos_pow_of_pos _ (by norm_num))
  rw [hsmall]
  omega

/-! ## Per-field round-trip lemmas -/

theorem int_roundtrip (bits : Nat) (v : Int) (b pre post : List Nat)
    (hb : bits = 8 ∨ bits = 16 ∨ bits = 32 ∨ bits = 64)
    (hpost : beVal post < 256 ^ post.length)
    (he : intEncode bits v = some b) :
    intDecode bits (pre ++ (b ++ post)) pre.length = some v ∧ b.length = bits / 8 := by
  obtain ⟨c, hc⟩ : ∃ c, bits = 8 * c := by
    rcases hb with h | h | h | h <;> subst h
    · exact ⟨1, rfl⟩
    · exact ⟨2, rfl⟩
    · exact ⟨4, rfl⟩
    · exact ⟨8, rfl⟩
  have hbpos : 0 < bits := by omega
  unfold intEncode at he
  split at he
  case isFalse => exact absurd he (by simp)
  case isTrue hrange =>
    obtain ⟨hlo, hhi⟩ := hrange
    have hsome := Option.some.inj he
    set u : Nat := (v % (2 ^ bits : Int)).toNat with hu
    set len : Nat := (bits + 7) / 8 with hlen
    have hlen8 : len = bits / 8 := by omega
    have hsplit : (2 : Int) ^ bits = 2 * 2 ^ (bits - 1) := by
      rw [← pow_succ']
      congr 1
      omega
    have hpos1 : (0 : Int) < 2 ^ (bits - 1) := by positivity
    have hcast1 : ((2 ^ (bits - 1) : Nat) : Int) = (2 : Int) ^ (bits - 1) := by
      push_cast; rfl
    have hcast2 : ((2 ^ bits : Nat) : Int) = (2 : Int) ^ bits := by
      push_cast; rfl
    have hmodlt : v % (2 ^ bits : Int) < (2 : Int) ^ bits :=
      Int.emod_lt_of_pos v (by positivity)
    have hmodnn : 0 ≤ v % (2 ^ bits : Int) := Int.emod_nonneg v (by positivity)
    have huval : (u : Int) = v % (2 ^ bits : Int) := Int.toNat_of_nonneg hmodnn
    have hub : u < 2 ^ bits := by omega
    have hblen : b.length = len := by rw [← hsome, length_beBytes]
    refine ⟨?_, by rw [hblen, hlen8]⟩
    unfold intDecode
    rw [List.drop_left]
    have hguard : bits ≤ 8 * (b ++ post).length := by
      rw [List.length_append, hblen]
      omega
    rw [if_pos hguard]
    have hread : readBits bits (b ++ post) = u := by
      rw [← hsome]
      exact readBits_encoded bits len u post (by omega) hub hpost
    rw [hread]
    have hshift : (v + (2 : Int) ^ bits) % (2 : Int) ^ bits = v % (2 : Int) ^ bits := by
      have h := Int.add_mul_emod_self_left (a := v) (b := (2 : Int) ^ bits) (c := 1)
      rw [mul_one] at h
      exact h
    show some (if u < 2 ^ (bits - 1) then (u : Int) else (u : Int) - 2 ^ bits) = some v
    congr 1
    split
    case isTrue hult =>
      by_cases hvn : 0 ≤ v
      · have hmodv : v % (2 : Int) ^ bits = v := Int.emod_eq_of_lt hvn (by omega)
        omega
      · push_neg at hvn
        have hmodv : v % (2 : Int) ^ bits = v + 2 ^ bits := by
          rw [← hshift]
          exact Int.emod_eq_of_lt (by omega) (by omega)
        omega
    case isFalse hult =>
      by_cases hvn : 0 ≤ v
      · have hmodv : v % (2 : Int) ^ bits = v := Int.emod_eq_of_lt hvn (by omega)
        omega
      · push_neg at hvn
        have hmodv : v % (2 : Int) ^ bits = v + 2 ^ bits := by
          rw [← hshift]
          exact Int.emod_eq_of_lt (by omega) (by omega)
        omega

theorem float64_roundtrip (p : Nat) (b pre post : List Nat)
    (hpost : beVal post < 256 ^ post.length)
    (he : floatEncode 64 p = some b) :
    floatDecode 64 (pre ++ (b ++ post)) pre.length = some p ∧ b.length = 8 := by
  unfold floatEncode at he
  split at he
  case isFalse => exact absurd he (by simp)
  case isTrue hp =>
    simp only [if_pos rfl] at he
    have hsome := Option.some.inj he
    have hblen : b.length = 8 := by rw [← hsome, length_beBytes]
    refine ⟨?_, hblen⟩
    unfold floatDecode
    rw [List.drop_left]
    have hguard : 64 ≤ 8 * (b ++ post).length := by
      rw [List.length_append, hblen]
      omega
    rw [if_pos hguard]
    have hread : readBits 64 (b ++ post) = p := by
      rw [← hsome]
      have := readBits_encoded 64 8 p post (by omega) (by simpa using hp) hpost
      simpa using this
    rw [hread]
    simp

theorem enum_roundtrip (items : List String) (s : String) (b pre post : List Nat)
    (hpost : beVal post < 256 ^ post.length)
    (he : enumEncode items s = some b) :
    enumDecode items (pre ++ (b ++ post)) pre.length = some s ∧
      b.length = enumSizeBytes items.length := by
  unfold enumEncode at he
  split at he
  case isFalse => exact absurd he (by simp)
  case isTrue hmem =>
    have hsmem : s ∈ items := List.elem_iff.mp hmem
    have hsome := Option.some.inj he
    set bits : Nat := bitsFor items.length with hbits
    set len : Nat := enumEncBytes items.length with hlen
    set idx : Nat := items.indexOf s with hidx
    have hidxlt : idx < items.length := List.indexOf_lt_length.mpr hsmem
    have hidx2 : idx < 2 ^ bits :=
      lt_trans hidxlt (lt_two_pow_bitsFor items.length)
    have hbl : bits ≤ 8 * len := by
      have := Nat.div_add_mod (bits + 7) 8
      have hlen2 : len = (bits + 7) / 8 := rfl
      omega
    have hblen : b.length = len := by rw [← hsome, length_beBytes]
    refine ⟨?_, by rw [hblen, hlen, encBytes_eq_sizeBytes]⟩
    unfold enumDecode
    rw [List.drop_left]
    have hguard : bits ≤ 8 * (b ++ post).length := by
      rw [List.length_append, hblen]
      omega
    rw [if_pos hguard]
    have hread : readBits bits (b ++ post) = idx := by
      rw [← hsome]
      exact readBits_encoded bits len idx post hbl hidx2 hpost
    rw [hread]
    rw [dif_pos hidxlt]
    congr 1
    exact List.indexOf_get hidxlt

/-! ## Encoded bytes are bytes -/

theorem mem_utf8EncodeChar_lt (c : Char) :
    ∀ x ∈ utf8EncodeChar c.toNat, x < 256 := by
  have hc : c.toNat < 0x110000 := by
    have h := c.valid
    unfold UInt32.isValidChar at h
    unfold Nat.isValidChar at h
    rcases h with h | ⟨_, h⟩
    · exact Nat.lt_trans h (by norm_num)
    · exact h
  intro x hx
  unfold utf8EncodeChar at hx
  split at hx
  · simp at hx; omega
  · split at hx
    · have h1 : c.toNat / 0x40 < 0x20 := by omega
      have h2 : c.toNat % 0x40 < 0x40 := Nat.mod_lt _ (by norm_num)
      simp at hx
      rcases hx with hx | hx <;> omega
    · split at hx
      · have h1 : c.toNat / 0x1000 < 0x10 := by omega
        have h2 : c.toNat / 0x40 % 0x40 < 0x40 := Nat.mod_lt _ (by norm_num)
        have h3 : c.toNat % 0x40 < 0x40 := Nat.mod_lt _ (by norm_num)
        simp at hx
        rcases hx with hx | hx | hx <;> omega
      · have h1 : c.toNat / 0x40000 < 5 := by omega
        have h2 : c.toNat / 0x1000 % 0x40 < 0x40 := Nat.mod_lt _ (by norm_num)
        have h3 : c.toNat / 0x40 % 0x40 < 0x40 := Nat.mod_lt _ (by norm_num)
        have h4 : c.toNat % 0x40 < 0x40 := Nat.mod_lt _ (by norm_num)
        simp at hx
        rcases hx with hx | hx | hx | hx <;> omega

theorem mem_utf8Bytes_lt (s : String) : ∀ x ∈ utf8Bytes s, x < 256 := by
  intro x hx
  unfold utf8Bytes at hx
  rw [List.mem_flatten] at hx
  obtain ⟨l, hl, hxl⟩ := hx
  rw [List.mem_map] at hl
  obtain ⟨c, _, hcl⟩ := hl
  subst hcl
  exact mem_utf8EncodeChar_lt c x hxl

theorem intEncode_bytes_lt (bits : Nat) (v : Int) (b : List Nat)
    (he : intEncode bits v = some b) : ∀ x ∈ b, x < 256 := by
  unfold intEncode at he
  split at he
  · exact fun x hx => mem_beBytes_lt _ _ x (Option.some.inj he ▸ hx)
  · exact absurd he (by simp)

theorem floatEncode_bytes_lt (bits p : Nat) (b : List Nat)
    (he : floatEncode bits p = some b) : ∀ x ∈ b, x < 256 := by
  unfold floatEncode at he
  split at he
  · split at he
    · exact fun x hx => mem_beBytes_lt _ _ x (Option.some.inj he ▸ hx)
    · split at he
      · rw [Option.map_eq_some'] at he
        obtain ⟨q, _, hq⟩ := he
        exact fun x hx => mem_beBytes_lt _ _ x (hq ▸ hx)
      · exact absurd he (by simp)
  · exact absurd he (by simp)

theorem strEncode_bytes_lt (s : String) (b : List Nat)
    (he : strEncode s = some b) : ∀ x ∈ b, x < 256 := by
  unfold strEncode at he
  simp only [] at he
  split at he
  · intro x hx
    rw [← Option.some.inj he] at hx
    rw [List.mem_append] at hx
    rcases hx with hx | hx
    · exact mem_utf8Bytes_lt s x hx
    · simp at hx; omega
  · exact absurd he (by simp)

theorem enumEncode_bytes_lt (items : List String) (s : String) (b : List Nat)
    (he : enumEncode items s = some b) : ∀ x ∈ b, x < 256 := by
  unfold enumEncode at he
  split at he
  · exact fun x hx => mem_beBytes_lt _ _ x (Option.some.inj he ▸ hx)
  · exact absurd he (by simp)

theorem encodeField_bytes_lt (k : FieldKind) (v : PyValue) (b : List Nat)
    (he : encodeField k v = some b) : ∀ x ∈ b, x < 256 := by
  cases k <;> cases v <;> simp only [encodeField] at he <;>
    first
      | exact Option.noConfusion he
      | skip
  case integer.vint bits n => exact intEncode_bytes_lt bits n b he
  case float.vfloat bits p => exact floatEncode_bytes_lt bits p b he
  case string.vstr s => exact strEncode_bytes_lt s b he
  case enum.vstr items s => exact enumEncode_bytes_lt items s b he

theorem formEncode_bytes_lt (fields : List Field) (values : List PyValue)
    (bytes : List Nat) (he : formEncode fields values = some bytes) :
    ∀ x ∈ bytes, x < 256 := by
  induction fields generalizing values bytes with
  | nil =>
    cases values with
    | nil =>
      intro x hx
      simp [formEncode] at he
      subst he
      simp at hx
    | cons v vs => exact absurd he (by simp [formEncode])
  | cons fld fs ih =>
    cases values with
    | nil => exact absurd he (by simp [formEncode])
    | cons v vs =>
      intro x hx
      simp only [formEncode, bind, Option.bind_eq_some] at he
      obtain ⟨b, hb, rest, hrest, hsum⟩ := he
      have hsum2 := Option.some.inj hsum
      rw [← hsum2] at hx
      rw [List.mem_append] at hx
      rcases hx with hx | hx
      · exact encodeField_bytes_lt fld.kind v b hb x hx
      · exact ih vs rest hrest x hx

/-! ## The fixed-width round trip -/

theorem decodeField_encodeField (k : FieldKind) (v : PyValue) (b pre post : List Nat)
    (hk : fixedOk k = true) (hv : valueWf v = true)
    (hpost : beVal post < 256 ^ post.length)
    (he : encodeField k v = some b) :
    decodeField k (pre ++ (b ++ post)) pre.length = some v ∧ pyAdvance k v = b.length := by
  cases k with
  | integer bits =>
    cases v with
    | vint n =>
      have hb : bits = 8 ∨ bits = 16 ∨ bits = 32 ∨ bits = 64 := by
        simp [fixedOk] at hk
        rcases hk with h | h | h | h <;> omega
      obtain ⟨hdec, hlen⟩ := int_roundtrip bits n b pre post hb hpost he
      refine ⟨?_, ?_⟩
      · simp [decodeField, hdec]
      · simp [pyAdvance, fieldSize, hlen]
    | vfloat p => exact absurd he (by simp [encodeField])
    | vstr s => exact absurd he (by simp [encodeField])
  | float bits =>
    cases v with
    | vfloat p =>
      have hb : bits = 64 := by simpa [fixedOk] using hk
      subst hb
      obtain ⟨hdec, hlen⟩ := float64_roundtrip p b pre post hpost he
      refine ⟨?_, ?_⟩
      · simp [decodeField, hdec]
      · simp [pyAdvance, fieldSize, hlen]
    | vint n => exact absurd he (by simp [encodeField])
    | vstr s => exact absurd he (by simp [encodeField])
  | string => simp [fixedOk] at hk
  | enum items =>
    cases v with
    | vstr s =>
      obtain ⟨hdec, hlen⟩ := enum_roundtrip items s b pre post hpost he
      refine ⟨?_, ?_⟩
      · simp [decodeField, hdec]
      · simp [pyAdvance, fieldSize, hlen]
    | vint n => exact absurd he (by simp [encodeField])
    | vfloat p => exact absurd he (by simp [encodeField])

theorem formDecodeLoop_encode (fields : List Field) (values : List PyValue)
    (bytes pre : List Nat) (obj : Dict)
    (hf : ∀ f ∈ fields, fixedOk f.kind = true)
    (hv : ∀ v ∈ values, valueWf v = true)
    (he : formEncode fields values = some bytes)
    (hpre : ∀ x ∈ pre, x < 256) :
    formDecodeLoop fields (pre ++ bytes) pre.length obj =
      some (dictInsertAll obj (List.zip (fields.map Field.name) values)) := by
  induction fields generalizing values bytes pre obj with
  | nil =>
    cases values with
    | nil =>
      simp [formEncode] at he
      subst he
      simp [formDecodeLoop, dictInsertAll]
    | cons v vs => exact absurd he (by simp [formEncode])
  | cons fld fs ih =>
    cases values with
    | nil => exact absurd he (by simp [formEncode])
    | cons v vs =>
      simp only [formEncode, bind, Option.bind_eq_some] at he
      obtain ⟨b, hb, rest, hrest, hsum⟩ := he
      have hsum2 := Option.some.inj hsum
      subst hsum2
      have hrest_lt : ∀ x ∈ rest, x < 256 := formEncode_bytes_lt fs vs rest hrest
      have hpost : beVal rest < 256 ^ rest.length := beVal_lt rest hrest_lt
      obtain ⟨hdec, hadv⟩ := decodeField_encodeField fld.kind v b pre rest
        (hf fld (List.mem_cons_self fld fs)) (hv v (List.mem_cons_self v vs)) hpost hb
      show formDecodeLoop (fld :: fs) (pre ++ (b ++ rest)) pre.length obj = _
      rw [formDecodeLoop, hdec]
      show formDecodeLoop fs (pre ++ (b ++ rest)) (pre.length + pyAdvance fld.kind v)
          (dictInsert obj fld.name v) =
        some (dictInsertAll obj ((List.map Field.name (fld :: fs)).zip (v :: vs)))
      have hoff : pre.length + pyAdvance fld.kind v = (pre ++ b).length := by
        rw [List.length_append, hadv]
      rw [hoff]
      have hassoc : pre ++ (b ++ rest) = (pre ++ b) ++ rest := by
        rw [List.append_assoc]
      rw [hassoc]
      have hpreb : ∀ x ∈ pre ++ b, x < 256 := by
        intro x hx
        rw [List.mem_append] at hx
        rcases hx with hx | hx
        · exact hpre x hx
        · exact encodeField_bytes_lt fld.kind v b hb x hx
      have := ih vs rest (pre ++ b) (dictInsert obj fld.name v)
        (fun f hf2 => hf f (List.mem_cons_of_mem fld hf2))
        (fun w hw => hv w (List.mem_cons_of_mem v hw)) hrest hpreb
      rw [this]
      simp [dictInsertAll]

/-! ## Parser step lemmas -/

theorem collectWord_nonalpha (st : PState) (h : (curChar st).isAlpha = false) :
    collectWord st = .error (.parseError st.cursor "letter") := by
  unfold collectWord
  rw [h]
  simp

theorem parseField_word_error (st : PState) (e : PErr)
    (h : collectWord st = .error e) : parseField st = .error e := by
  unfold parseField
  rw [h]
  rfl

theorem parseLoopGo_succ (fuel : Nat) (st : PState) (acc : List Field) :
    parseLoopGo (fuel + 1) st acc =
      if st.cursor < st.source.length then
        match parseField st with
        | .error e => .error e
        | .ok (fld, st2) =>
          if curChar st2 ≠ ',' then .ok (acc ++ [fld])
          else parseLoopGo fuel (advance st2) (acc ++ [fld])
      else .ok acc := rfl

theorem parseLoopGo_error (fuel : Nat) (st : PState) (acc : List Field) (e : PErr)
    (hcur : st.cursor < st.source.length) (herr : parseField st = .error e) :
    parseLoopGo (fuel + 1) st acc = .error e := by
  rw [parseLoopGo_succ, if_pos hcur, herr]

theorem parseLoopGo_comma (fuel : Nat) (st st2 : PState) (acc : List Field)
    (fld : Field)
    (hcur : st.cursor < st.source.length)
    (hok : parseField st = .ok (fld, st2))
    (hcomma : curChar st2 = ',') :
    parseLoopGo (fuel + 1) st acc = parseLoopGo fuel (advance st2) (acc ++ [fld]) := by
  rw [parseLoopGo_succ, if_pos hcur, hok]
  show (if curChar st2 ≠ ',' then Except.ok (acc ++ [fld])
      else parseLoopGo fuel (advance st2) (acc ++ [fld])) =
    parseLoopGo fuel (advance st2) (acc ++ [fld])
  rw [if_neg (by simp [hcomma])]

theorem parseLoopGo_end (fuel : Nat) (st : PState) (acc : List Field)
    (hcur : ¬ st.cursor < st.source.length) :
    parseLoopGo (fuel + 1) st acc = .ok acc := by
  rw [parseLoopGo_succ, if_neg hcur]

/-! ## The claims -/

/-- C1 (amended): for every FormSpec containing only Integer fields of the
parser-accepted widths, 64-bit Float fields and Enum fields — no String and
no 32-bit Float fields — and every sequence of values accepted by encode
without error, decoding the encoded buffer yields exactly the encoded
values back, as the name-to-value mapping `Form.decode` builds in
declaration order.  Values are taken post-parse (`int(text)`, the binary64
pattern of `float(text)`, the label text), which is the only reading under
which decode's typed output can equal encode's input. -/
theorem c1_roundtrip_fixed64 (fields : List Field) (values : List PyValue)
    (buf : List Nat)
    (hf : ∀ f ∈ fields, fixedOk f.kind = true)
    (hv : ∀ v ∈ values, valueWf v = true)
    (he : formEncode fields values = some buf) :
    formDecode fields buf =
      some (dictInsertAll [] (List.zip (fields.map Field.name) values)) := by
  have h := formDecodeLoop_encode fields values buf [] [] hf hv he (by simp)
  simpa [formDecode] using h

/-- C1 witness: a three-field form (int8, enum, float64) round-trips at a
concrete input; the float value is 23.0, pattern 0x4037000000000000. -/
theorem c1_roundtrip_fixed64_witness :
    formDecode
        [⟨"age", .integer 8⟩, ⟨"mode", .enum ["on", "off"]⟩, ⟨"x", .float 64⟩]
        [253, 64, 0x40, 0x37, 0, 0, 0, 0, 0, 0] =
      some [("age", .vint (-3)), ("mode", .vstr "off"),
        ("x", .vfloat 0x4037000000000000)] :=
  c1_roundtrip_fixed64
    [⟨"age", .integer 8⟩, ⟨"mode", .enum ["on", "off"]⟩, ⟨"x", .float 64⟩]
    [.vint (-3), .vstr "off", .vfloat 0x4037000000000000]
    [253, 64, 0x40, 0x37, 0, 0, 0, 0, 0, 0]
    (by decide) (by decide) (by decide)

/-- C1 counterexample: under the form with the single 32-bit Float field
`x`, the value whose binary64 pattern is 0x3FF0000000000001 (the double
right above 1.0, i.e. `float("1.0000000000000002")`) is accepted by encode,
but decoding the encoded buffer returns pattern 0x3FF0000000000000 (exactly
1.0): encode rounds to binary32, so `decode (encode values) ≠ values` for a
FormSpec containing only Integer/Float/Enum fields. -/
theorem c1_counterexample :
    formEncode [⟨"x", .float 32⟩] [.vfloat 0x3FF0000000000001] =
        some [0x3F, 0x80, 0, 0] ∧
    formDecode [⟨"x", .float 32⟩] [0x3F, 0x80, 0, 0] =
        some [("x", .vfloat 0x3FF0000000000000)] ∧
    Nat.beq 0x3FF0000000000001 0x3FF0000000000000 = false :=
  ⟨by decide, by decide, by decide⟩

/-- C2 (code bug, evaluated at the failing input): decoding the buffer
`C3 A9 00 1E` under the form `name:s,age:i8` finds the first NUL at index
2, so the spec's advance is (2 - 0) + 1 = 3 and the int field should read
byte 0x1E = 30; but `Form.decode` advances the offset by
`len(decoded) + 1 = 2` — the *character* count of the decoded `"é"` plus
one, not its UTF-8 byte count plus one — so the int field reads the NUL
byte and returns 0.  The third conjunct shows 30 is what decoding the int
at the spec's offset 3 yields. -/
theorem c2_string_offset_bug :
    formDecode [⟨"name", .string⟩, ⟨"age", .integer 8⟩] [0xC3, 0xA9, 0, 30] =
        some [("name", .vstr (String.mk [Char.ofNat 233])), ("age", .vint 0)] ∧
    (([0xC3, 0xA9, 0, 30] : List Nat).findIdx? fun b => b == 0) = some 2 ∧
    intDecode 8 [0xC3, 0xA9, 0, 30] 3 = some 30 :=
  ⟨by decide, by decide, by decide⟩

/-- C3 (code bug, evaluated at the failing input): encoding the one-character
text `"é"` under a String field raises (bitstring `CreationError`: the
token length `len("é") + 1 = 2` characters differs from the 3 UTF-8 bytes),
instead of emitting the 3 bytes `C3 A9 00 = utf8("é") ++ [NUL]` the claim
requires; on ASCII text, where character count equals byte count, the
encoding is the claimed UTF-8-plus-NUL byte string. -/
theorem c3_string_encode_bug :
    strEncode (String.mk [Char.ofNat 233]) = none ∧
    utf8Bytes (String.mk [Char.ofNat 233]) ++ [0] = [0xC3, 0xA9, 0] ∧
    strEncode "ok" = some [0x6F, 0x6B, 0] :=
  ⟨by decide, by decide, by decide⟩

/-- C4 counterexample (the claim's negation): there is no item count
`n ≥ 1` at which the encoded enum byte length `ceil(ceil(log2(n+1))/8)`
differs from the decoder's offset step `ceil(log2(n+1)/8)`; the two
formulas agree everywhere, by the division identity
`ceil(ceil(x)/8) = ceil(x/8)` — which holds for the exact logarithm and
for any common computed value of `math.log2(n+1)` alike. -/
theorem c4_counterexample :
    ¬ ∃ n : Nat, 1 ≤ n ∧ enumEncBytes n ≠ enumSizeBytes n := by
  rintro ⟨n, -, hne⟩
  exact hne (encBytes_eq_sizeBytes n)

/-- C4 (amended): for every number of enum items `n`, the byte length of
the enum field's encoded output equals the offset step the form decoder
skips for that field: the two formulas never disagree. -/
theorem c4_formulas_agree (n : Nat) : enumEncBytes n = enumSizeBytes n :=
  encBytes_eq_sizeBytes n

set_option maxRecDepth 8192 in
/-- C5: the enum width boundaries: 3 items give 2 bits in 1 byte, 255 items
give 8 bits in exactly 1 byte, 256 items give 9 bits in 2 bytes — at encode
time (the length of `Field.encode`'s output) and in the decoder's offset
step (`Field.size`) alike. -/
theorem c5_enum_boundaries :
    (bitsFor 3 = 2 ∧ enumEncBytes 3 = 1 ∧
      (enumEncode ["a", "b", "c"] "a").map List.length = some 1 ∧
      fieldSize (.enum ["a", "b", "c"]) = 1) ∧
    (bitsFor 255 = 8 ∧ enumEncBytes 255 = 1 ∧
      (enumEncode (List.replicate 255 "a") "a").map List.length = some 1 ∧
      fieldSize (.enum (List.replicate 255 "a")) = 1) ∧
    (bitsFor 256 = 9 ∧ enumEncBytes 256 = 2 ∧
      (enumEncode (List.replicate 256 "a") "a").map List.length = some 2 ∧
      fieldSize (.enum (List.replicate 256 "a")) = 2) :=
  ⟨⟨by decide, by decide, by decide, by decide⟩,
    ⟨by decide, by decide, by decide, by decide⟩,
    ⟨by decide, by decide, by decide, by decide⟩⟩

/-- C6: once a field has been parsed and the character after it is not a
comma, the `parse_form` loop returns the fields collected so far without
error, whatever text remains unconsumed in the source.  (With schema text
written as `e[...;]`, the enum item loop consumes the `;` but never the
`]`, so the character after an enum field that is not last is `]` — as in
the witness — and every later field is silently dropped.) -/
theorem c6_stop_without_error (fuel : Nat) (st st2 : PState)
    (acc : List Field) (fld : Field)
    (hcur : st.cursor < st.source.length)
    (hok : parseField st = .ok (fld, st2))
    (hcomma : curChar st2 ≠ ',') :
    parseLoopGo (fuel + 1) st acc = .ok (acc ++ [fld]) := by
  rw [parseLoopGo_succ, if_pos hcur, hok]
  show (if curChar st2 ≠ ',' then Except.ok (acc ++ [fld])
      else parseLoopGo fuel (advance st2) (acc ++ [fld])) =
    Except.ok (acc ++ [fld])
  rw [if_pos hcomma]

/-- C6 witness: parsing `"x:e[a,b;],y:i8"` succeeds and returns only the
enum field `x` — the field `y` after the unconsumed `]` is dropped without
any error. -/
theorem c6_witness :
    parseForm "x:e[a,b;],y:i8" = .ok [⟨"x", .enum ["a", "b"]⟩] :=
  c6_stop_without_error 13 ⟨"x:e[a,b;],y:i8".data, 0⟩
    ⟨"x:e[a,b;],y:i8".data, 8⟩ [] ⟨"x", .enum ["a", "b"]⟩
    (by decide) (by decide) (by decide)

/-- C7: a schema whose first character is not a letter fails with the
parser's word error positioned at offset 0, returning no FormSpec.  The
hypothesis keeps the first character in the ASCII range, where the model's
`Char.isAlpha` coincides with Python's `str.isalpha`. -/
theorem c7_nonletter_start_fails (s : String)
    (h : (s.data.head?.any fun c => decide (c.toNat < 128) && !c.isAlpha) = true) :
    parseForm s = .error (.parseError 0 "letter") := by
  obtain ⟨c, cs, hdata⟩ : ∃ c cs, s.data = c :: cs := by
    cases hd : s.data with
    | nil => rw [hd] at h; simp [Option.any] at h
    | cons c cs => exact ⟨c, cs, rfl⟩
  have hAlpha : c.isAlpha = false := by
    rw [hdata] at h
    simp [Option.any] at h
    exact h.2
  have hchar : curChar ⟨c :: cs, 0⟩ = c := by
    simp [curChar]
  have hcw : collectWord ⟨c :: cs, 0⟩ = .error (.parseError 0 "letter") :=
    collectWord_nonalpha _ (by rw [hchar, hAlpha])
  have hfe : parseField ⟨c :: cs, 0⟩ = .error (.parseError 0 "letter") :=
    parseField_word_error _ _ hcw
  unfold parseForm
  rw [hdata, if_neg (by simp)]
  exact parseLoopGo_error (c :: cs).length ⟨c :: cs, 0⟩ [] _ (by simp) hfe

/-- C7 witness: parsing `"1name:i8"` fails at position 0. -/
theorem c7_witness : parseForm "1name:i8" = .error (.parseError 0 "letter") :=
  c7_nonletter_start_fails "1name:i8" (by decide)

/-- C8: decoding an Enum field with `n` items from a buffer holding at
least `ceil(bits/8)` bytes past the offset reads the leading
`bits = ceil(log2(n+1))` bits as an unsigned big-endian index and fails
(Python `IndexError`) exactly when that index is at least `n`; otherwise
the result is `items[index]`. -/
theorem c8_enum_decode (items : List String) (buf : List Nat) (off : Nat)
    (h : enumSizeBytes items.length ≤ buf.length - off) :
    enumDecode items buf off =
      if hidx : readBits (bitsFor items.length) (buf.drop off) < items.length then
        some (items.get ⟨readBits (bitsFor items.length) (buf.drop off), hidx⟩)
      else none := by
  unfold enumDecode
  have hguard : bitsFor items.length ≤ 8 * (buf.drop off).length := by
    rw [List.length_drop]
    have h2 := Nat.div_add_mod (bitsFor items.length + 7) 8
    have h3 : enumSizeBytes items.length = (bitsFor items.length + 7) / 8 :=
      (encBytes_eq_sizeBytes _).symm
    omega
  rw [if_pos hguard]

/-- C8 witness: two items, one byte `0x40`: the leading 2 bits give index
1, the result is `"off"`. -/
theorem c8_witness : enumDecode ["on", "off"] [64] 0 = some "off" :=
  c8_enum_decode ["on", "off"] [64] 0 (by decide)

/-- C9: parsing the empty schema raises the uncaught `IndexError` of
`self.char = codeform[0]` during parser initialization — neither an empty
FormSpec (`.ok []`) nor a positioned `.parseError` is ever produced, by
constructor disjointness. -/
theorem c9_empty_schema_index_error :
    parseForm "" = .error .indexError := by decide

/-- C10: when a parsed field is followed by a comma that is the last
character of the source, the `parse_form` loop consumes the comma and then
stops because the cursor has passed the end, succeeding with exactly the
fields parsed so far — no field is required after the trailing comma,
although the grammar `form := field ("," field)*` demands one. -/
theorem c10_trailing_comma (fuel : Nat) (st st2 : PState)
    (acc : List Field) (fld : Field)
    (hcur : st.cursor < st.source.length)
    (hok : parseField st = .ok (fld, st2))
    (hcomma : curChar st2 = ',')
    (hend : st2.source.length ≤ st2.cursor + 1) :
    parseLoopGo (fuel + 2) st acc = .ok (acc ++ [fld]) := by
  show parseLoopGo ((fuel + 1) + 1) st acc = .ok (acc ++ [fld])
  rw [parseLoopGo_comma (fuel + 1) st st2 acc fld hcur hok hcomma]
  exact parseLoopGo_end fuel (advance st2) (acc ++ [fld])
    (by simp only [advance]; omega)

/-- C10 witness: parsing `"a:i8,"` succeeds and returns exactly the one
field before the trailing comma. -/
theorem c10_witness : parseForm "a:i8," = .ok [⟨"a", .integer 8⟩] :=
  c10_trailing_comma 3 ⟨"a:i8,".data, 0⟩ ⟨"a:i8,".data, 4⟩ []
    ⟨"a", .integer 8⟩ (by decide) (by decide) (by decide) (by decide)

end Enform
